import Mathlib

/-!
Shallow embedding of the RSA-attack toolkit (Fermat factorization,
small-public-exponent root recovery, Wiener continued-fraction attack) and of
the number-theoretic primitives they share, together with theorems settling
the specification claims about them.

Python's arbitrary-precision non-negative integers are modelled by `Nat`
(or `Int` where a quantity can go negative); Python's floor division `//`
and remainder `%` on results that can be negative are modelled by `Int`'s
`/` (`Int.ediv`) and `%` (`Int.emod`), which agree with Python for positive
divisors.  While-loops are modelled by explicit fuel that provably exceeds
the number of iterations the Python loop performs on the stated domain.
-/

/-! ### Integer square root (`math.isqrt`)

Python's `math.isqrt n` is the exact floor square root.  It is modelled by a
fueled binary search on the interval `[lo, hi)` maintaining
`lo*lo ≤ n < hi*hi`; the interval shrinks every step, so fuel `n + 2`
always suffices and the result is the unique floor root. -/

def isqrtAux (n : Nat) : Nat → Nat → Nat → Nat
  | 0, lo, _ => lo
  | fuel+1, lo, hi =>
    if lo + 1 < hi then
      let mid := (lo + hi) / 2
      if mid * mid ≤ n then isqrtAux n fuel mid hi else isqrtAux n fuel lo mid
    else lo

def isqrt (n : Nat) : Nat := isqrtAux n (n + 2) 0 (n + 1)

theorem isqrtAux_spec (n : Nat) : ∀ fuel lo hi, lo * lo ≤ n → n < hi * hi →
    lo < hi → hi - lo ≤ fuel + 1 →
    isqrtAux n fuel lo hi * isqrtAux n fuel lo hi ≤ n ∧
      n < (isqrtAux n fuel lo hi + 1) * (isqrtAux n fuel lo hi + 1) := by
  intro fuel
  induction fuel with
  | zero =>
    intro lo hi hlo hhi hlt hfuel
    have : hi = lo + 1 := by omega
    subst this
    simpa [isqrtAux] using ⟨hlo, hhi⟩
  | succ fuel ih =>
    intro lo hi hlo hhi hlt hfuel
    by_cases hmid : lo + 1 < hi
    · have hm1 : lo < (lo + hi) / 2 := by omega
      have hm2 : (lo + hi) / 2 < hi := by omega
      by_cases hle : ((lo + hi) / 2) * ((lo + hi) / 2) ≤ n
      · simpa [isqrtAux, hmid, hle] using
          ih ((lo + hi) / 2) hi hle hhi hm2 (by omega)
      · simpa [isqrtAux, hmid, hle] using
          ih lo ((lo + hi) / 2) hlo (by omega) hm1 (by omega)
    · have : hi = lo + 1 := by omega
      subst this
      simpa [isqrtAux, hmid] using ⟨hlo, hhi⟩

theorem isqrt_spec (n : Nat) :
    isqrt n * isqrt n ≤ n ∧ n < (isqrt n + 1) * (isqrt n + 1) := by
  have h := isqrtAux_spec n (n + 2) 0 (n + 1) (by omega) (by nlinarith) (by omega)
    (by omega)
  simpa [isqrt] using h

theorem isqrt_le (n : Nat) : isqrt n * isqrt n ≤ n := (isqrt_spec n).1

theorem lt_isqrt_succ (n : Nat) : n < (isqrt n + 1) * (isqrt n + 1) :=
  (isqrt_spec n).2

/-- The floor root is unique: any `r` with `r*r ≤ n < (r+1)*(r+1)` is `isqrt n`. -/
theorem isqrt_unique {n r : Nat} (h1 : r * r ≤ n) (h2 : n < (r + 1) * (r + 1)) :
    isqrt n = r := by
  rcases Nat.lt_trichotomy (isqrt n) r with h | h | h
  · have : isqrt n + 1 ≤ r := h
    have := lt_isqrt_succ n
    nlinarith
  · exact h
  · have : r + 1 ≤ isqrt n := h
    have := isqrt_le n
    nlinarith

/-! ### `fermat_factorization` (src/fermat_attack.py)

```python
a = math.isqrt(n)
if a * a < n:
    a += 1
for _ in range(max_iterations):
    b_squared = a * a - n
    b = math.isqrt(b_squared)
    if b * b == b_squared:
        return a - b, a + b
    a += 1
return None
```
On every reachable state `n ≤ a*a` holds, so `Nat` truncated subtraction in
`a * a - n` agrees with Python's exact subtraction. -/

def fermatLoop (n : Nat) : Nat → Nat → Option (Nat × Nat)
  | 0, _ => none
  | fuel+1, a =>
    let bSquared := a * a - n
    let b := isqrt bSquared
    if b * b = bSquared then some (a - b, a + b)
    else fermatLoop n fuel (a + 1)

def fermat_factorization (n maxIterations : Nat) : Option (Nat × Nat) :=
  let a0 := isqrt n
  let a := if a0 * a0 < n then a0 + 1 else a0
  fermatLoop n maxIterations a

/-- The starting value of `a` satisfies `n ≤ a*a`. -/
theorem fermat_start_sq (n : Nat) :
    n ≤ (if isqrt n * isqrt n < n then isqrt n + 1 else isqrt n) *
        (if isqrt n * isqrt n < n then isqrt n + 1 else isqrt n) := by
  by_cases h : isqrt n * isqrt n < n
  · simpa [h] using Nat.le_of_lt (lt_isqrt_succ n)
  · simpa [h] using Nat.le_of_not_lt h

/-- Any pair surfaced by the Fermat loop satisfies `1 ≤ p ≤ q` and `p*q = n`,
purely by construction. -/
theorem fermatLoop_sound (n : Nat) : ∀ fuel a p q, 1 ≤ n → n ≤ a * a →
    fermatLoop n fuel a = some (p, q) → 1 ≤ p ∧ p ≤ q ∧ p * q = n := by
  intro fuel
  induction fuel with
  | zero => intro a p q _ _ h; simp [fermatLoop] at h
  | succ fuel ih =>
    intro a p q hn ha h
    rw [fermatLoop] at h
    by_cases hb : isqrt (a * a - n) * isqrt (a * a - n) = a * a - n
    · simp only [hb, if_pos] at h
      obtain ⟨hp, hq⟩ : a - isqrt (a * a - n) = p ∧ a + isqrt (a * a - n) = q := by
        simpa using h
      generalize hB : isqrt (a * a - n) = b at hb hp hq
      have hsum : a * a = b * b + n := by omega
      have hba : b ≤ a := by nlinarith
      obtain ⟨d, rfl⟩ : ∃ d, a = b + d := ⟨a - b, by omega⟩
      have h1 : b + d - b = d := by omega
      rw [h1] at hp
      subst hp
      subst hq
      have hd : 1 ≤ d := by
        rcases Nat.eq_zero_or_pos d with hd0 | hd0
        · subst hd0
          simp at hsum
          omega
        · exact hd0
      refine ⟨hd, by omega, ?_⟩
      have h2 : (b + d) * (b + d) = b * b + d * (b + d + b) := by ring
      rw [hsum] at h2
      exact (Nat.add_left_cancel h2).symm
    · simp only [hb, if_neg, if_false] at h
      exact ih (a + 1) p q hn (by nlinarith) h

theorem fermat_factorization_sound {n maxIt p q : Nat} (hn : 1 ≤ n)
    (h : fermat_factorization n maxIt = some (p, q)) :
    1 ≤ p ∧ p ≤ q ∧ p * q = n := by
  have := fermat_start_sq n
  exact fermatLoop_sound n maxIt _ p q hn this h

/-! ### `newton_nth_root` (src/small_e_attack.py)

```python
if x == 0:
    return 0
r = x
for _ in range(precision):
    r_new = ((n - 1) * r + x // (r ** (n - 1))) // n
    if r_new >= r:
        break
    r = r_new
while r ** n > x:
    r -= 1
while (r + 1) ** n <= x:
    r += 1
return r
```
The Newton loop (`precision = 100` at every call site) is modelled with fuel
100; the two repair loops are modelled by `fixDown` (structural descent on
`r`; at `r = 0` Python's guard `0 ** n > x` is false on every reachable
state, matching the base case) and by the fueled `fixUpAux` (for `n ≥ 1`
each pass has `r + 1 ≤ (r+1)^n ≤ x`, so fuel `x` dominates the iteration
count; `n = 0` with `x ≥ 1` makes the Python loop diverge and is unreachable
from the attacks, which pass `n = e ≥ 2`). -/

def newtonIter (x n : Nat) : Nat → Nat → Nat
  | 0, r => r
  | fuel+1, r =>
    let rNew := ((n - 1) * r + x / r ^ (n - 1)) / n
    if r ≤ rNew then r else newtonIter x n fuel rNew

def fixDown (x n : Nat) : Nat → Nat
  | 0 => 0
  | r+1 => if x < (r + 1) ^ n then fixDown x n r else r + 1

def fixUpAux (x n : Nat) : Nat → Nat → Nat
  | 0, r => r
  | fuel+1, r => if (r + 1) ^ n ≤ x then fixUpAux x n fuel (r + 1) else r

def newton_nth_root (x n : Nat) : Nat :=
  if x = 0 then 0
  else fixUpAux x n x (fixDown x n (newtonIter x n 100 x))

theorem fixDown_le (x n : Nat) (hn : 1 ≤ n) : ∀ r, fixDown x n r ^ n ≤ x := by
  intro r
  induction r with
  | zero =>
    simp only [fixDown]
    rw [Nat.zero_pow (by omega)]
    exact Nat.zero_le x
  | succ r ih =>
    rw [fixDown]
    by_cases h : x < (r + 1) ^ n
    · simpa [h] using ih
    · simpa [h] using Nat.le_of_not_lt h

theorem fixUpAux_spec (x n : Nat) (hn : 1 ≤ n) : ∀ fuel r, r ^ n ≤ x →
    x ≤ fuel + r →
    fixUpAux x n fuel r ^ n ≤ x ∧ x < (fixUpAux x n fuel r + 1) ^ n := by
  intro fuel
  induction fuel with
  | zero =>
    intro r hr hfuel
    refine ⟨by simpa [fixUpAux] using hr, ?_⟩
    have h1 : r + 1 ≤ (r + 1) ^ n := Nat.le_self_pow (by omega) _
    simp only [fixUpAux]
    omega
  | succ fuel ih =>
    intro r hr hfuel
    rw [fixUpAux]
    by_cases h : (r + 1) ^ n ≤ x
    · simpa [h] using ih (r + 1) h (by omega)
    · simpa [h] using ⟨hr, Nat.lt_of_not_le h⟩

/-- `newton_nth_root x n` is a floor `n`-th root for every `n ≥ 1`. -/
theorem newton_nth_root_spec (x n : Nat) (hn : 1 ≤ n) :
    newton_nth_root x n ^ n ≤ x ∧ x < (newton_nth_root x n + 1) ^ n := by
  rw [newton_nth_root]
  by_cases hx : x = 0
  · subst hx
    simp [Nat.zero_pow (show 0 < n by omega), Nat.one_pow]
  · simp only [hx, if_false]
    exact fixUpAux_spec x n hn x (fixDown x n (newtonIter x n 100 x))
      (fixDown_le x n hn _) (by omega)

/-- Uniqueness of the floor `e`-th root. -/
theorem floor_pow_unique {e x r s : Nat} (he : 1 ≤ e) (hr : r ^ e ≤ x)
    (hr2 : x < (r + 1) ^ e) (hs : s ^ e ≤ x) (hs2 : x < (s + 1) ^ e) :
    r = s := by
  rcases Nat.lt_trichotomy r s with h | h | h
  · have : r + 1 ≤ s := h
    have := Nat.pow_le_pow_left this e
    omega
  · exact h
  · have : s + 1 ≤ r := h
    have := Nat.pow_le_pow_left this e
    omega

/-- On an exact `e`-th power the routine recovers the base. -/
theorem newton_nth_root_pow {e m t : Nat} (he : 1 ≤ e) (h : m ^ e = t) :
    newton_nth_root t e = m := by
  obtain ⟨h1, h2⟩ := newton_nth_root_spec t e he
  have hm1 : m ^ e ≤ t := le_of_eq h
  have hm2 : t < (m + 1) ^ e := by
    rw [← h]
    exact Nat.pow_lt_pow_left (by omega) (by omega)
  exact floor_pow_unique he h1 h2 hm1 hm2

/-! ### `attack_small_e` (src/small_e_attack.py)

```python
n, e = public_key
for k in range(max_k):
    target = ciphertext + k * n
    m = newton_nth_root(target, e)
    if m ** e == target:
        return m
return None
```
Note the loop tries the offsets `k = 0, 1, ..., max_k - 1` (exclusive upper
bound) and accepts the first exact root. -/

def attackLoop (n e c : Nat) : Nat → Nat → Option Nat
  | 0, _ => none
  | fuel+1, k =>
    let target := c + k * n
    let m := newton_nth_root target e
    if m ^ e = target then some m
    else attackLoop n e c fuel (k + 1)

def attack_small_e (n e c maxK : Nat) : Option Nat := attackLoop n e c maxK 0

theorem attackLoop_finds (n e c m : Nat) (he : 1 ≤ e) : ∀ fuel start k,
    start ≤ k → k < start + fuel → m ^ e = c + k * n →
    (∀ j r, start ≤ j → j < k → r ^ e ≠ c + j * n) →
    attackLoop n e c fuel start = some m := by
  intro fuel
  induction fuel with
  | zero => intro start k h1 h2 _ _; omega
  | succ fuel ih =>
    intro start k h1 h2 hm hmin
    rw [attackLoop]
    rcases Nat.eq_or_lt_of_le h1 with heq | hlt
    · subst heq
      have hroot : newton_nth_root (c + start * n) e = m :=
        newton_nth_root_pow he hm
      rw [hroot, hm]
      simp
    · have hfail : ¬ (newton_nth_root (c + start * n) e ^ e = c + start * n) :=
        hmin start _ (le_refl start) hlt
      simp only [hfail, if_neg, if_false]
      exact ih (start + 1) k (by omega) (by omega) hm
        (fun j r hj1 hj2 => hmin j r (by omega) hj2)

/-! ### Claim C7: `newton_nth_root` computes the floor k-th root -/

/-- C7: for every `x ≥ 0` and `k ≥ 2`, `newton_nth_root x k` returns the
unique integer `r ≥ 0` with `r^k ≤ x < (r+1)^k` (the floor k-th root). -/
theorem newton_nth_root_is_floor_root (x k : Nat) (hk : 2 ≤ k) :
    newton_nth_root x k ^ k ≤ x ∧ x < (newton_nth_root x k + 1) ^ k ∧
      ∀ r, r ^ k ≤ x → x < (r + 1) ^ k → r = newton_nth_root x k := by
  obtain ⟨h1, h2⟩ := newton_nth_root_spec x k (by omega)
  exact ⟨h1, h2, fun r hr1 hr2 => floor_pow_unique (by omega) hr1 hr2 h1 h2⟩

theorem newton_nth_root_is_floor_root_witness :
    newton_nth_root 10 2 ^ 2 ≤ 10 ∧ 10 < (newton_nth_root 10 2 + 1) ^ 2 ∧
      ∀ r, r ^ 2 ≤ 10 → 10 < (r + 1) ^ 2 → r = newton_nth_root 10 2 :=
  newton_nth_root_is_floor_root 10 2 (by decide)

/-! ### Claim C1: the small-exponent recoverer -/

/-- C1 fails as stated: the loop tries only `k < maxOffset` (`range(max_k)`
is exclusive), so with `maxOffset = 0` nothing is tried — for `m = 2`,
`n = 10`, `e = 2` (so `m^e < n`) the claimed call returns `none`, not `2`;
and the first-match policy can return a different message — for `m = 3`,
`n = 5`, `e = 2`, `k = 1 ≤ maxOffset = 1` we have `3^2 = (3^2 mod 5) + 1*5`,
yet the attack returns `2` (the exact root found already at `k = 0`). -/
theorem attack_small_e_claim_counterexample :
    attack_small_e 10 2 (2 ^ 2 % 10) 0 = none ∧ (2 : Nat) ^ 2 < 10 ∧
      attack_small_e 5 2 (3 ^ 2 % 5) 1 = some 2 ∧
      (3 : Nat) ^ 2 = 3 ^ 2 % 5 + 1 * 5 ∧ (2 : Nat) ≠ 3 := by decide

/-- C1 amended: for `k` the *smallest* offset with `ciphertext + k*n` an
exact `e`-th power, and `k < maxOffset` (strict), the recoverer returns the
`e`-th root `m` of that target; in particular, for `m^e < n` it returns `m`
when called with `maxOffset = 1`. -/
theorem attack_small_e_first_exact_root (n e c m k maxK : Nat) (he : 2 ≤ e)
    (hk : k < maxK) (hm : m ^ e = c + k * n)
    (hmin : ∀ j r, j < k → r ^ e ≠ c + j * n) :
    attack_small_e n e c maxK = some m :=
  attackLoop_finds n e c m (by omega) maxK 0 k (Nat.zero_le k) (by omega) hm
    (fun j r _ hj2 => hmin j r hj2)

theorem attack_small_e_first_exact_root_witness :
    attack_small_e 10 2 9 1 = some 3 :=
  attack_small_e_first_exact_root 10 2 9 3 0 1 (by decide) (by decide)
    (by decide) (fun j r hj => absurd hj (Nat.not_lt_zero j))

/-! ### Claims C2 and C9: what a surfaced Fermat pair satisfies -/

/-- C2 fails as stated: `fermat_factorization` performs no verification of
the pair it returns, and the property `p > 1` can fail — for the prime
modulus `n = 3` it surfaces the trivial factorization `(1, 3)`. -/
theorem fermat_unverified_counterexample :
    fermat_factorization 3 1 = some (1, 3) ∧ ¬ ((1 : Nat) > 1) := by decide

/-- C2 amended: no explicit verification is performed, but every returned
pair satisfies `p * q = n` and `p ≥ 1`, `q ≥ 1` by construction; `p > 1`
(and hence `q > 1` meaning a nontrivial factor) is not guaranteed. -/
theorem fermat_accepted_pair_partial (n maxIt p q : Nat) (hn : 1 ≤ n)
    (h : fermat_factorization n maxIt = some (p, q)) :
    p * q = n ∧ 1 ≤ p ∧ 1 ≤ q := by
  obtain ⟨h1, h2, h3⟩ := fermat_factorization_sound hn h
  exact ⟨h3, h1, le_trans h1 h2⟩

theorem fermat_accepted_pair_partial_witness :
    fermat_factorization 15 5 = some (3, 5) ∧ 3 * 5 = 15 ∧ 1 ≤ 3 ∧ 1 ≤ 5 :=
  ⟨by decide, fermat_accepted_pair_partial 15 5 3 5 (by decide) (by decide)⟩

/-- C9: whenever `fermat_factorization n maxIt` returns `(p, q)` with
`n ≥ 1`, then `1 ≤ p ≤ q` and `p * q = n` hold unconditionally — they
follow from the construction `p = a-b`, `q = a+b` with `b^2 = a^2 - n`. -/
theorem fermat_pair_by_construction (n maxIt p q : Nat) (hn : 1 ≤ n)
    (h : fermat_factorization n maxIt = some (p, q)) :
    1 ≤ p ∧ p ≤ q ∧ p * q = n := fermat_factorization_sound hn h

theorem fermat_pair_by_construction_witness :
    fermat_factorization 21 5 = some (3, 7) ∧ 1 ≤ 3 ∧ 3 ≤ 7 ∧ 3 * 7 = 21 :=
  ⟨by decide, fermat_pair_by_construction 21 5 3 7 (by decide) (by decide)⟩

/-! ### Claim C5: no rejection of non-positive moduli -/

/-- C5 fails as stated: neither entry point validates its modulus; for the
non-positive modulus `n = 0` both return numeric results. -/
theorem no_modulus_check_counterexample :
    fermat_factorization 0 1 = some (0, 0) ∧
      attack_small_e 0 2 4 1 = some 2 := by decide

/-- C5 amended: no input validation exists.  With `n = 0` the Fermat search
returns the numeric pair `(0, 0)` on its first iteration, and the
small-exponent recoverer returns the `e`-th root of any ciphertext that is
an exact `e`-th power. -/
theorem no_modulus_check (maxIt e c m maxK : Nat) :
    (1 ≤ maxIt → fermat_factorization 0 maxIt = some (0, 0)) ∧
      (2 ≤ e → 1 ≤ maxK → m ^ e = c → attack_small_e 0 e c maxK = some m) := by
  constructor
  · intro h
    obtain ⟨f, rfl⟩ : ∃ f, maxIt = f + 1 := ⟨maxIt - 1, by omega⟩
    have h0 : isqrt 0 = 0 := by decide
    simp [fermat_factorization, fermatLoop, h0]
  · intro he hK hm
    exact attackLoop_finds 0 e c m (by omega) maxK 0 0 (le_refl 0) (by omega)
      (by simpa using hm) (fun j r hj1 hj2 => absurd hj2 (Nat.not_lt_zero j))

theorem no_modulus_check_witness :
    fermat_factorization 0 3 = some (0, 0) ∧ attack_small_e 0 2 9 1 = some 3 :=
  ⟨(no_modulus_check 3 2 9 3 1).1 (by decide),
    (no_modulus_check 3 2 9 3 1).2 (by decide) (by decide) (by decide)⟩

/-! ### `extended_gcd` and `mod_inverse` (src/rsa.py)

```python
def extended_gcd(a, b):
    if a == 0:
        return b, 0, 1
    gcd_val, x1, y1 = extended_gcd(b % a, a)
    return gcd_val, y1 - (b // a) * x1, x1

def mod_inverse(a, m):
    gcd_val, x, _ = extended_gcd(a, m)
    if gcd_val != 1:
        return None
    return (x % m + m) % m
```
The recursion descends on the first argument (`b % a < a`), so fuel `a + 1`
always suffices.  The Bezout coefficients can be negative and live in `Int`;
Python's `%` and `//` there coincide with `Int.emod` / `Int.ediv`. -/

def extendedGcdAux : Nat → Nat → Nat → Nat × Int × Int
  | 0, _, b => (b, 0, 1)
  | fuel+1, a, b =>
    if a = 0 then (b, 0, 1)
    else
      match extendedGcdAux fuel (b % a) a with
      | (g, x1, y1) => (g, y1 - ((b / a : Nat) : Int) * x1, x1)

def extended_gcd (a b : Nat) : Nat × Int × Int := extendedGcdAux (a + 1) a b

def mod_inverse (a m : Nat) : Option Int :=
  if (extended_gcd a m).1 ≠ 1 then none
  else some (((extended_gcd a m).2.1 % (m : Int) + m) % m)

theorem extendedGcdAux_spec : ∀ fuel a b, a < fuel →
    (extendedGcdAux fuel a b).1 = Nat.gcd a b ∧
      (a : Int) * (extendedGcdAux fuel a b).2.1 +
        (b : Int) * (extendedGcdAux fuel a b).2.2 =
        ((extendedGcdAux fuel a b).1 : Int) := by
  intro fuel
  induction fuel with
  | zero => intro a b h; omega
  | succ fuel ih =>
    intro a b h
    by_cases ha : a = 0
    · subst ha
      simp [extendedGcdAux]
    · have hlt : b % a < fuel := by
        have := Nat.mod_lt b (show 0 < a by omega)
        omega
      have hrec := ih (b % a) a hlt
      rcases hE : extendedGcdAux fuel (b % a) a with ⟨g, x1, y1⟩
      rw [hE] at hrec
      obtain ⟨h1, h2⟩ := hrec
      simp only [extendedGcdAux, ha, if_false, ite_false, hE]
      constructor
      · rw [Nat.gcd_rec a b]
        exact h1
      · have hdm : (a : Int) * ((b / a : Nat) : Int) + ((b % a : Nat) : Int) =
            (b : Int) := by
          exact_mod_cast Nat.div_add_mod b a
        dsimp only at h2
        linear_combination h2 - x1 * hdm

theorem extended_gcd_spec (a b : Nat) :
    (extended_gcd a b).1 = Nat.gcd a b ∧
      (a : Int) * (extended_gcd a b).2.1 + (b : Int) * (extended_gcd a b).2.2 =
        ((extended_gcd a b).1 : Int) :=
  extendedGcdAux_spec (a + 1) a b (by omega)

/-! ### Claim C8: `mod_inverse` -/

/-- C8: for `m > 1`, `mod_inverse a m` returns `none` iff `gcd(a, m) ≠ 1`,
and otherwise a value `x` with `0 ≤ x < m` and `(a * x) mod m = 1`. -/
theorem mod_inverse_spec (a m : Nat) (hm : 1 < m) :
    (mod_inverse a m = none ↔ Nat.gcd a m ≠ 1) ∧
      ∀ x, mod_inverse a m = some x →
        0 ≤ x ∧ x < (m : Int) ∧ ((a : Int) * x) % (m : Int) = 1 := by
  obtain ⟨hg, hbez⟩ := extended_gcd_spec a m
  have hmpos : (0 : Int) < (m : Int) := by exact_mod_cast (show 0 < m by omega)
  constructor
  · constructor
    · intro h hgcd
      rw [mod_inverse, hg] at h
      simp [hgcd] at h
    · intro hgcd
      rw [mod_inverse, hg]
      simp [hgcd]
  · intro x hx
    rw [mod_inverse] at hx
    by_cases h1 : (extended_gcd a m).1 = 1
    · simp only [h1, ne_eq, not_true_eq_false, if_false, ite_false,
        Option.some.injEq] at hx
      set x0 := (extended_gcd a m).2.1 with hx0
      set y0 := (extended_gcd a m).2.2 with hy0
      have hxval : x = (x0 % (m : Int) + m) % m := hx.symm
      have hrange : 0 ≤ x ∧ x < (m : Int) := by
        rw [hxval]
        exact ⟨Int.emod_nonneg _ (by omega), Int.emod_lt_of_pos _ hmpos⟩
      refine ⟨hrange.1, hrange.2, ?_⟩
      have hb1 : (a : Int) * x0 + (m : Int) * y0 = 1 := by
        rw [hbez, h1]
        norm_num
      have hxm : x = x0 % (m : Int) := by
        rw [hxval]
        have h2 : x0 % (m : Int) + (m : Int) = x0 % m + m * 1 := by ring
        rw [h2, Int.add_mul_emod_self_left, Int.emod_emod_of_dvd _ dvd_rfl]
      have hcollapse : ((a : Int) * (x0 % (m : Int))) % m = ((a : Int) * x0) % m := by
        conv_lhs => rw [Int.mul_emod]
        conv_rhs => rw [Int.mul_emod]
        rw [Int.emod_emod_of_dvd _ dvd_rfl]
      have h1m : (1 : Int) < (m : Int) := by exact_mod_cast hm
      calc ((a : Int) * x) % m = ((a : Int) * x0) % m := by rw [hxm, hcollapse]
        _ = ((a : Int) * x0 + (m : Int) * y0) % m :=
            (Int.add_mul_emod_self_left _ _ _).symm
        _ = 1 % m := by rw [hb1]
        _ = 1 := Int.emod_eq_of_lt (by omega) h1m
    · simp [h1] at hx

theorem mod_inverse_spec_witness :
    (mod_inverse 3 7 = none ↔ Nat.gcd 3 7 ≠ 1) ∧
      ∀ x, mod_inverse 3 7 = some x →
        0 ≤ x ∧ x < ((7 : Nat) : Int) ∧
          (((3 : Nat) : Int) * x) % ((7 : Nat) : Int) = 1 :=
  mod_inverse_spec 3 7 (by decide)

/-! ### `continued_fraction_expansion` and `convergents_from_cf`
(src/wiener_attack.py)

```python
cf = []
while denominator != 0:
    q = numerator // denominator
    cf.append(q)
    numerator, denominator = denominator, numerator - q * denominator

p_prev2, p_prev1 = 1, cf[0]
q_prev2, q_prev1 = 0, 1
convergents = [(cf[0], 1)]
for i in range(1, len(cf)):
    p_curr = cf[i] * p_prev1 + p_prev2
    q_curr = cf[i] * q_prev1 + q_prev2
    convergents.append((p_curr, q_curr))
    p_prev2, p_prev1 = p_prev1, p_curr
    q_prev2, q_prev1 = q_prev1, q_curr
```
The Euclidean loop strictly decreases the denominator, so fuel
`denominator + 1` suffices.  `convergents_from_cf` indexes `cf[0]` and in
Python faults on an empty list; the empty case (reachable only for
denominator `0`, which no caller produces) is modelled as `[]`. -/

def cfeAux : Nat → Nat → Nat → List Nat
  | 0, _, _ => []
  | fuel+1, num, den =>
    if den = 0 then []
    else (num / den) :: cfeAux fuel den (num % den)

def continued_fraction_expansion (numerator denominator : Nat) : List Nat :=
  cfeAux (denominator + 1) numerator denominator

def convergentsAux : List Nat → Nat → Nat → Nat → Nat → List (Nat × Nat)
  | [], _, _, _, _ => []
  | a :: rest, pPrev2, pPrev1, qPrev2, qPrev1 =>
    (a * pPrev1 + pPrev2, a * qPrev1 + qPrev2) ::
      convergentsAux rest pPrev1 (a * pPrev1 + pPrev2) qPrev1 (a * qPrev1 + qPrev2)

def convergents_from_cf : List Nat → List (Nat × Nat)
  | [] => []
  | a0 :: rest => (a0, 1) :: convergentsAux rest 1 a0 0 1

/-- Every coefficient emitted with a divisor `0 < den ≤ num` is positive. -/
theorem cfeAux_all_pos : ∀ fuel num den, den ≠ 0 → den ≤ num → den < fuel →
    ∀ x ∈ cfeAux fuel num den, 1 ≤ x := by
  intro fuel
  induction fuel with
  | zero => intro num den _ _ h; omega
  | succ fuel ih =>
    intro num den hden hle hfuel x hx
    rw [cfeAux] at hx
    simp only [hden, if_false, ite_false, List.mem_cons] at hx
    rcases hx with rfl | hx
    · exact (Nat.one_le_div_iff (by omega)).mpr hle
    · by_cases hz : num % den = 0
      · rw [hz] at hx
        cases fuel with
        | zero => simp [cfeAux] at hx
        | succ fuel => simp [cfeAux] at hx
      · have hmod : num % den < den := Nat.mod_lt num (by omega)
        exact ih den (num % den) hz (by omega) (by omega) x hx

theorem convergentsAux_length : ∀ (l : List Nat) pp2 pp1 qp2 qp1,
    (convergentsAux l pp2 pp1 qp2 qp1).length = l.length := by
  intro l
  induction l with
  | nil => intro pp2 pp1 qp2 qp1; rfl
  | cons a rest ih =>
    intro pp2 pp1 qp2 qp1
    simp only [convergentsAux, List.length_cons, ih]

/-- Strictly increasing denominators once the seeds are both positive. -/
theorem convergentsAux_snd_chain : ∀ (l : List Nat) pp2 pp1 qp2 qp1,
    (∀ x ∈ l, 1 ≤ x) → 1 ≤ qp2 → 1 ≤ qp1 →
    List.Chain' (fun s t => s < t)
      (qp1 :: (convergentsAux l pp2 pp1 qp2 qp1).map Prod.snd) := by
  intro l
  induction l with
  | nil => intro pp2 pp1 qp2 qp1 _ _ _; simp [convergentsAux]
  | cons a rest ih =>
    intro pp2 pp1 qp2 qp1 hcoef hq2 hq1
    have ha : 1 ≤ a := hcoef a (List.mem_cons_self a rest)
    have hstep : qp1 < a * qp1 + qp2 := by nlinarith
    simp only [convergentsAux, List.map_cons]
    exact List.Chain'.cons hstep
      (ih pp1 (a * pp1 + pp2) qp1 (a * qp1 + qp2)
        (fun x hx => hcoef x (List.mem_cons_of_mem a hx)) hq1 (by nlinarith))

/-- The determinant-style invariant propagates and yields coprimality. -/
theorem convergentsAux_coprime : ∀ (l : List Nat) pp2 pp1 qp2 qp1,
    (pp1 * qp2 + 1 = pp2 * qp1 ∨ pp2 * qp1 + 1 = pp1 * qp2) →
    ∀ pr ∈ convergentsAux l pp2 pp1 qp2 qp1, Nat.Coprime pr.1 pr.2 := by
  intro l
  induction l with
  | nil => intro pp2 pp1 qp2 qp1 _ pr hpr; simp [convergentsAux] at hpr
  | cons a rest ih =>
    intro pp2 pp1 qp2 qp1 hinv pr hpr
    have hinv' : (a * pp1 + pp2) * qp1 + 1 = pp1 * (a * qp1 + qp2) ∨
        pp1 * (a * qp1 + qp2) + 1 = (a * pp1 + pp2) * qp1 := by
      rcases hinv with h | h
      · right; nlinarith
      · left; nlinarith
    simp only [convergentsAux, List.mem_cons] at hpr
    rcases hpr with rfl | hpr
    · have : Nat.gcd (a * pp1 + pp2) (a * qp1 + qp2) ∣ 1 := by
        rcases hinv' with h | h
        · have hd1 : Nat.gcd (a * pp1 + pp2) (a * qp1 + qp2) ∣
              pp1 * (a * qp1 + qp2) := Dvd.dvd.mul_left (Nat.gcd_dvd_right _ _) _
          have hd2 : Nat.gcd (a * pp1 + pp2) (a * qp1 + qp2) ∣
              (a * pp1 + pp2) * qp1 := Dvd.dvd.mul_right (Nat.gcd_dvd_left _ _) _
          have := Nat.dvd_sub' hd1 hd2
          rw [← h] at this
          simpa using this
        · have hd1 : Nat.gcd (a * pp1 + pp2) (a * qp1 + qp2) ∣
              (a * pp1 + pp2) * qp1 := Dvd.dvd.mul_right (Nat.gcd_dvd_left _ _) _
          have hd2 : Nat.gcd (a * pp1 + pp2) (a * qp1 + qp2) ∣
              pp1 * (a * qp1 + qp2) := Dvd.dvd.mul_left (Nat.gcd_dvd_right _ _) _
          have := Nat.dvd_sub' hd1 hd2
          rw [← h] at this
          simpa using this
      exact Nat.dvd_one.mp this
    · exact ih pp1 (a * pp1 + pp2) qp1 (a * qp1 + qp2) hinv' pr hpr

theorem cfe_lt_unfold (e n : Nat) (hen : e < n) :
    continued_fraction_expansion e n = 0 :: cfeAux n n e := by
  rw [continued_fraction_expansion, cfeAux]
  have hn : ¬ (n = 0) := by omega
  simp only [hn, if_false, ite_false]
  rw [Nat.div_eq_of_lt hen, Nat.mod_eq_of_lt hen]

/-! ### Claim C4: structure of the convergent sequence -/

/-- C4 fails as stated: for `e = 2`, `n = 3` the convergents are
`[(0,1), (1,1), (2,3)]` — the second denominator equals the first instead of
strictly exceeding it. -/
theorem convergents_chain_counterexample :
    (convergents_from_cf (continued_fraction_expansion 2 3)).map Prod.snd =
        [1, 1, 3] ∧
      ¬ List.Chain' (fun s t => s < t)
        ((convergents_from_cf (continued_fraction_expansion 2 3)).map
          Prod.snd) := by
  have hlist : (convergents_from_cf (continued_fraction_expansion 2 3)).map
      Prod.snd = [1, 1, 3] := by decide
  refine ⟨hlist, ?_⟩
  rw [hlist]
  intro h
  obtain ⟨h1, _⟩ := List.chain'_cons.mp h
  omega

/-- C4 amended: for `0 < e < n` the convergent list has exactly one entry per
continued-fraction coefficient (in increasing index order), every entry is
coprime, and the denominators are non-decreasing throughout and strictly
increasing from the second entry on. -/
theorem convergents_of_cf_structure (e n : Nat) (he : 0 < e) (hen : e < n) :
    (convergents_from_cf (continued_fraction_expansion e n)).length =
        (continued_fraction_expansion e n).length ∧
      (∀ pr ∈ convergents_from_cf (continued_fraction_expansion e n),
        Nat.Coprime pr.1 pr.2) ∧
      List.Chain' (fun s t => s ≤ t)
        ((convergents_from_cf (continued_fraction_expansion e n)).map
          Prod.snd) ∧
      List.Chain' (fun s t => s < t)
        (((convergents_from_cf (continued_fraction_expansion e n)).map
          Prod.snd).tail) := by
  rw [cfe_lt_unfold e n hen]
  have hpos : ∀ x ∈ cfeAux n n e, 1 ≤ x :=
    cfeAux_all_pos n n e (by omega) (by omega) (by omega)
  refine ⟨?_, ?_, ?_, ?_⟩
  · simp [convergents_from_cf, convergentsAux_length]
  · intro pr hpr
    simp only [convergents_from_cf, List.mem_cons] at hpr
    rcases hpr with rfl | hpr
    · simp [Nat.Coprime]
    · exact convergentsAux_coprime (cfeAux n n e) 1 0 0 1 (Or.inl (by norm_num))
        pr hpr
  · cases hT : cfeAux n n e with
    | nil => simp [convergents_from_cf, convergentsAux]
    | cons a1 rest =>
      have ha1 : 1 ≤ a1 := hpos a1 (hT ▸ List.mem_cons_self a1 rest)
      have hrest : ∀ x ∈ rest, 1 ≤ x :=
        fun x hx => hpos x (hT ▸ List.mem_cons_of_mem a1 hx)
      have hstrict := convergentsAux_snd_chain rest 0 1 1 a1 hrest (by omega) ha1
      simp only [convergents_from_cf, convergentsAux, List.map_cons,
        Nat.mul_zero, Nat.zero_add, Nat.mul_one, Nat.add_zero]
      exact List.Chain'.cons (by omega)
        (List.Chain'.imp (fun s t h => Nat.le_of_lt h) hstrict)
  · cases hT : cfeAux n n e with
    | nil => simp [convergents_from_cf, convergentsAux]
    | cons a1 rest =>
      have ha1 : 1 ≤ a1 := hpos a1 (hT ▸ List.mem_cons_self a1 rest)
      have hrest : ∀ x ∈ rest, 1 ≤ x :=
        fun x hx => hpos x (hT ▸ List.mem_cons_of_mem a1 hx)
      have hstrict := convergentsAux_snd_chain rest 0 1 1 a1 hrest (by omega) ha1
      simp only [convergents_from_cf, convergentsAux, List.map_cons,
        Nat.mul_zero, Nat.zero_add, Nat.mul_one, Nat.add_zero, List.tail_cons]
      exact hstrict

theorem convergents_of_cf_structure_witness :
    (convergents_from_cf (continued_fraction_expansion 2 3)).length =
        (continued_fraction_expansion 2 3).length ∧
      (∀ pr ∈ convergents_from_cf (continued_fraction_expansion 2 3),
        Nat.Coprime pr.1 pr.2) ∧
      List.Chain' (fun s t => s ≤ t)
        ((convergents_from_cf (continued_fraction_expansion 2 3)).map
          Prod.snd) ∧
      List.Chain' (fun s t => s < t)
        (((convergents_from_cf (continued_fraction_expansion 2 3)).map
          Prod.snd).tail) :=
  convergents_of_cf_structure 2 3 (by decide) (by decide)

/-! ### `attack_low_public_exponent` (src/low_exponent_attack.py)

```python
def nth_root(x, n):
    if x < 0:
        return None
    if x == 0:
        return 0
    low, high = 0, x
    while low <= high:
        mid = (low + high) // 2
        mid_pow = mid ** n
        if mid_pow == x:
            return mid
        elif mid_pow < x:
            low = mid + 1
        else:
            high = mid - 1
    return None

m = nth_root(c, e)
if m is not None:
    if pow(m, e, n) == c:
        return m
return None
```
`high` can become negative (`mid - 1` at `mid = 0`), so the search bounds
live in `Int`; Python's floor `//` by the positive literal `2` is `Int`'s
`/`.  The interval `[low, high]` strictly shrinks every iteration, so fuel
`x + 2` dominates the loop count. -/

def nthRootSearch (x n : Nat) : Nat → Int → Int → Option Int
  | 0, _, _ => none
  | fuel+1, low, high =>
    if low ≤ high then
      let mid := (low + high) / 2
      if mid ^ n = (x : Int) then some mid
      else if mid ^ n < (x : Int) then nthRootSearch x n fuel (mid + 1) high
      else nthRootSearch x n fuel low (mid - 1)
    else none

def nth_root (x n : Nat) : Option Int :=
  if x = 0 then some 0 else nthRootSearch x n (x + 2) 0 (x : Int)

def attack_low_public_exponent (c e n : Nat) : Option Int :=
  match nth_root c e with
  | none => none
  | some m => if m ^ e % (n : Int) = (c : Int) then some m else none

/-- Powers of non-negative integers are injective in the base. -/
theorem int_pow_inj {a b : Int} {n : Nat} (ha : 0 ≤ a) (hb : 0 ≤ b)
    (hn : 1 ≤ n) (h : a ^ n = b ^ n) : a = b := by
  rcases lt_trichotomy a b with hab | hab | hab
  · have := pow_lt_pow_left hab ha (show n ≠ 0 by omega)
    omega
  · exact hab
  · have := pow_lt_pow_left hab hb (show n ≠ 0 by omega)
    omega

theorem nthRootSearch_some {x n : Nat} : ∀ fuel (low high m : Int),
    0 ≤ low → nthRootSearch x n fuel low high = some m →
    m ^ n = (x : Int) ∧ low ≤ m ∧ m ≤ high := by
  intro fuel
  induction fuel with
  | zero => intro low high m _ h; simp [nthRootSearch] at h
  | succ fuel ih =>
    intro low high m hlow h
    rw [nthRootSearch] at h
    by_cases hle : low ≤ high
    · simp only [hle, if_pos, if_true] at h
      by_cases heq : ((low + high) / 2) ^ n = (x : Int)
      · simp only [heq, if_pos, if_true, Option.some.injEq] at h
        subst h
        refine ⟨heq, by omega, by omega⟩
      · simp only [heq, if_neg, if_false, ite_false] at h
        by_cases hlt : ((low + high) / 2) ^ n < (x : Int)
        · simp only [hlt, if_pos, if_true] at h
          obtain ⟨h1, h2, h3⟩ := ih ((low + high) / 2 + 1) high m (by omega) h
          exact ⟨h1, by omega, h3⟩
        · simp only [hlt, if_neg, if_false, ite_false] at h
          obtain ⟨h1, h2, h3⟩ := ih low ((low + high) / 2 - 1) m hlow h
          exact ⟨h1, h2, by omega⟩
    · simp [hle] at h

theorem nthRootSearch_finds {x n : Nat} (hn : 1 ≤ n) (m : Int) (hm : 0 ≤ m)
    (hx : m ^ n = (x : Int)) : ∀ (fuel : Nat) (low high : Int), 0 ≤ low →
    low ≤ m → m ≤ high → high + 1 - low ≤ (fuel : Int) →
    nthRootSearch x n fuel low high = some m := by
  intro fuel
  induction fuel with
  | zero => intro low high _ h1 h2 hf; omega
  | succ fuel ih =>
    intro low high hlow h1 h2 hf
    have hle : low ≤ high := by omega
    rw [nthRootSearch]
    simp only [hle, if_pos, if_true]
    by_cases heq : ((low + high) / 2) ^ n = (x : Int)
    · simp only [heq, if_pos, if_true]
      have : (low + high) / 2 = m :=
        int_pow_inj (by omega) hm hn (by rw [heq, hx])
      rw [this]
    · simp only [heq, if_neg, if_false, ite_false]
      by_cases hlt : ((low + high) / 2) ^ n < (x : Int)
      · have hmid : (low + high) / 2 < m := by
          by_contra hcon
          push_neg at hcon
          have := pow_le_pow_left hm hcon n
          omega
        simp only [hlt, if_pos, if_true]
        exact ih ((low + high) / 2 + 1) high (by omega) (by omega) h2 (by omega)
      · have hgt : (x : Int) < ((low + high) / 2) ^ n :=
          lt_of_le_of_ne (le_of_not_lt hlt) (Ne.symm heq)
        have hmid : m < (low + high) / 2 := by
          by_contra hcon
          push_neg at hcon
          have := pow_le_pow_left (by omega : (0:Int) ≤ (low + high) / 2) hcon n
          omega
        simp only [hlt, if_neg, if_false, ite_false]
        exact ih low ((low + high) / 2 - 1) hlow h1 (by omega) (by omega)

theorem nth_root_sound {x e : Nat} {z : Int} (he : 1 ≤ e)
    (h : nth_root x e = some z) : 0 ≤ z ∧ z ^ e = (x : Int) := by
  rw [nth_root] at h
  by_cases hx : x = 0
  · subst hx
    simp only [if_pos, Option.some.injEq] at h
    subst h
    rw [zero_pow (show e ≠ 0 by omega)]
    norm_num
  · simp only [hx, if_false, ite_false] at h
    obtain ⟨h1, h2, _⟩ := nthRootSearch_some (x + 2) 0 (x : Int) z (le_refl 0) h
    exact ⟨h2, h1⟩

theorem nth_root_complete {x e m : Nat} (he : 1 ≤ e) (hm : m ^ e = x) :
    nth_root x e = some (m : Int) := by
  rw [nth_root]
  by_cases hx : x = 0
  · subst hx
    have hm0 : m = 0 := by
      by_contra hm0
      have : 1 ≤ m ^ e := Nat.one_le_iff_ne_zero.mpr (pow_ne_zero e hm0)
      omega
    subst hm0
    simp
  · simp only [hx, if_false, ite_false]
    have hm1 : 1 ≤ m := by
      by_contra hm1
      have : m = 0 := by omega
      subst this
      rw [Nat.zero_pow (by omega)] at hm
      omega
    have hmx : m ≤ x := by
      calc m ≤ m ^ e := Nat.le_self_pow (by omega) m
        _ = x := hm
    exact nthRootSearch_finds he (m : Int) (by positivity)
      (by exact_mod_cast hm) (x + 2) 0 (x : Int) (le_refl 0)
      (by exact_mod_cast Nat.zero_le m) (by exact_mod_cast hmx)
      (by push_cast; omega)

/-- With `maxOffset = 1` the small-`e` attack succeeds exactly on perfect
`e`-th powers, returning the root. -/
theorem attack_small_e_one_iff (n e c m : Nat) (he : 2 ≤ e) :
    attack_small_e n e c 1 = some m ↔ m ^ e = c := by
  rw [attack_small_e, attackLoop]
  simp only [Nat.zero_mul, Nat.add_zero]
  constructor
  · intro h
    by_cases hr : newton_nth_root c e ^ e = c
    · simp only [hr, if_pos, if_true, Option.some.injEq] at h
      subst h
      exact hr
    · simp only [hr, if_neg, if_false, ite_false] at h
      simp [attackLoop] at h
  · intro hm
    have hroot : newton_nth_root c e = m := newton_nth_root_pow (by omega) hm
    rw [hroot, hm]
    simp

/-! ### Claim C10: the two low-exponent implementations agree -/

/-- C10: for `n > 1`, `e ≥ 2`, `0 ≤ c < n`, `attack_low_public_exponent`
and `attack_small_e` with `maxOffset = 1` agree, and both succeed exactly
on perfect `e`-th powers `c`, returning the `e`-th root. -/
theorem low_exponent_vs_small_e (c e n : Nat) (he : 2 ≤ e) (hn : 1 < n)
    (hc : c < n) :
    attack_low_public_exponent c e n =
        (attack_small_e n e c 1).map (fun m => (m : Int)) ∧
      ∀ m : Nat, attack_low_public_exponent c e n = some (m : Int) ↔
        m ^ e = c := by
  have key : ∀ m : Nat, attack_small_e n e c 1 = some m ↔ m ^ e = c :=
    fun m => attack_small_e_one_iff n e c m he
  by_cases hex : ∃ m : Nat, m ^ e = c
  · obtain ⟨m, hm⟩ := hex
    have hsm : attack_small_e n e c 1 = some m := (key m).mpr hm
    have hnr : nth_root c e = some (m : Int) := nth_root_complete (by omega) hm
    have hmc : ((m : Int)) ^ e = (c : Int) := by exact_mod_cast hm
    have hmod : ((m : Int)) ^ e % (n : Int) = (c : Int) := by
      rw [hmc]
      exact Int.emod_eq_of_lt (by positivity) (by exact_mod_cast hc)
    have hlow : attack_low_public_exponent c e n = some (m : Int) := by
      rw [attack_low_public_exponent, hnr]
      simp [hmod]
    refine ⟨by rw [hlow, hsm]; rfl, fun m' => ⟨fun h => ?_, fun h => ?_⟩⟩
    · rw [hlow] at h
      have hmm : (m : Int) = (m' : Int) := by
        simpa using h
      have : m = m' := by exact_mod_cast hmm
      rw [← this]
      exact hm
    · have hmm : m' = m := @Nat.pow_left_injective e (by omega) m' m
        (by show m' ^ e = m ^ e; rw [h, hm])
      rw [hmm]
      exact hlow
  · have hsm : attack_small_e n e c 1 = none := by
      cases hE : attack_small_e n e c 1 with
      | none => rfl
      | some m => exact absurd ⟨m, (key m).mp hE⟩ hex
    have hnr : nth_root c e = none := by
      cases hE : nth_root c e with
      | none => rfl
      | some z =>
        obtain ⟨hz0, hz⟩ := nth_root_sound (by omega) hE
        refine absurd ⟨z.toNat, ?_⟩ hex
        have : ((z.toNat : Int)) ^ e = (c : Int) := by
          rw [Int.toNat_of_nonneg hz0, hz]
        exact_mod_cast this
    refine ⟨by rw [attack_low_public_exponent, hnr, hsm]; rfl,
      fun m => ⟨fun h => ?_, fun h => absurd ⟨m, h⟩ hex⟩⟩
    rw [attack_low_public_exponent, hnr] at h
    exact Option.noConfusion h

theorem low_exponent_vs_small_e_witness :
    attack_low_public_exponent 8 3 10 =
        (attack_small_e 10 3 8 1).map (fun m => (m : Int)) ∧
      ∀ m : Nat, attack_low_public_exponent 8 3 10 = some (m : Int) ↔
        m ^ 3 = 8 :=
  low_exponent_vs_small_e 8 3 10 (by decide) (by decide) (by decide)

/-! ### Wiener attack (src/wiener_attack.py)

```python
def is_perfect_square(n):
    if n < 0:
        return False
    root = math.isqrt(n)
    return root * root == n

def solve_quadratic(a, b, c):
    discriminant = b * b - 4 * a * c
    if discriminant < 0:
        return None
    if not is_perfect_square(discriminant):
        return None
    sqrt_discriminant = math.isqrt(discriminant)
    if (- b + sqrt_discriminant) % (2 * a) != 0:
        return None
    x1 = (- b + sqrt_discriminant) // (2 * a)
    x2 = (- b - sqrt_discriminant) // (2 * a)
    return (x1, x2)

def recover_prime_factors(n, phi):
    sum_pq = n - phi + 1
    roots = solve_quadratic(1, -sum_pq, n)
    if roots is None:
        return None
    p, q = roots
    if p * q == n and p > 1 and q > 1:
        return (p, q)
    return None

def wiener_attack(public_key):
    n, e = public_key
    cf = continued_fraction_expansion(e, n)
    convergents = convergents_from_cf(cf)
    for i, (k, d) in enumerate(convergents):
        if k == 0:
            continue
        if (e * d - 1) % k != 0:
            continue
        phi = (e * d - 1) // k
        factors = recover_prime_factors(n, phi)
        if factors is not None:
            p, q = factors
            if (e * d) % phi == 1:
                return (n, d)
    return None
```
`solve_quadratic` is only ever called with `a = 1`, so its `%` and `//` use
the positive divisor `2`, where `Int.emod` / `Int.ediv` agree with Python.
Python would raise `ZeroDivisionError` on `(e*d) % phi` with `phi = 0`, but
`phi = 0` forces `recover_prime_factors` to return `None` first, so that
state is unreachable; `Int.emod`'s total behaviour there is never used. -/

def is_perfect_square (n : Int) : Bool :=
  if n < 0 then false
  else (isqrt n.toNat : Int) * (isqrt n.toNat : Int) == n

def solve_quadratic (a b c : Int) : Option (Int × Int) :=
  if b * b - 4 * a * c < 0 then none
  else if is_perfect_square (b * b - 4 * a * c) = false then none
  else
    if (- b + (isqrt (b * b - 4 * a * c).toNat : Int)) % (2 * a) ≠ 0 then none
    else some ((- b + (isqrt (b * b - 4 * a * c).toNat : Int)) / (2 * a),
      (- b - (isqrt (b * b - 4 * a * c).toNat : Int)) / (2 * a))

def recover_prime_factors (n : Nat) (phi : Int) : Option (Int × Int) :=
  match solve_quadratic 1 (- ((n : Int) - phi + 1)) (n : Int) with
  | none => none
  | some (p, q) =>
    if p * q = (n : Int) ∧ 1 < p ∧ 1 < q then some (p, q) else none

def wienerLoop (n e : Nat) : List (Nat × Nat) → Option (Nat × Nat)
  | [] => none
  | (k, d) :: rest =>
    if k = 0 then wienerLoop n e rest
    else if ((e : Int) * d - 1) % (k : Int) ≠ 0 then wienerLoop n e rest
    else
      match recover_prime_factors n (((e : Int) * d - 1) / (k : Int)) with
      | none => wienerLoop n e rest
      | some _ =>
        if ((e : Int) * d) % (((e : Int) * d - 1) / (k : Int)) = 1
        then some (n, d) else wienerLoop n e rest

def wiener_attack (n e : Nat) : Option (Nat × Nat) :=
  wienerLoop n e (convergents_from_cf (continued_fraction_expansion e n))

/-- The two roots returned by `solve_quadratic 1 b c` sum to `-b`. -/
theorem solve_quadratic_sum {b c x1 x2 : Int}
    (h : solve_quadratic 1 b c = some (x1, x2)) : x1 + x2 = - b := by
  rw [solve_quadratic] at h
  simp at h
  obtain ⟨hD, hsq, hdvd, hx1, hx2⟩ := h
  set s : Int := (isqrt (b * b - 4 * c).toNat : Int) with hs
  obtain ⟨u, hu⟩ := hdvd
  have h2 : - b - s = 2 * (u - s) := by omega
  have hx1u : x1 = u := by
    rw [← hx1, hu]
    exact Int.mul_ediv_cancel_left u (by norm_num)
  have hx2u : x2 = u - s := by
    rw [← hx2, h2]
    exact Int.mul_ediv_cancel_left (u - s) (by norm_num)
  omega

/-- What a successful `recover_prime_factors` guarantees. -/
theorem recover_prime_factors_sound {n : Nat} {phi p q : Int}
    (h : recover_prime_factors n phi = some (p, q)) :
    p * q = (n : Int) ∧ 1 < p ∧ 1 < q ∧ p + q = (n : Int) - phi + 1 := by
  rw [recover_prime_factors] at h
  cases hS : solve_quadratic 1 (- ((n : Int) - phi + 1)) (n : Int) with
  | none => rw [hS] at h; exact Option.noConfusion h
  | some r =>
    obtain ⟨x1, x2⟩ := r
    rw [hS] at h
    by_cases hcheck : x1 * x2 = (n : Int) ∧ 1 < x1 ∧ 1 < x2
    · simp only [hcheck, if_pos, if_true, Option.some.injEq, Prod.mk.injEq] at h
      obtain ⟨rfl, rfl⟩ := h
      have hsum := solve_quadratic_sum hS
      exact ⟨hcheck.1, hcheck.2.1, hcheck.2.2, by omega⟩
    · simp [hcheck] at h

theorem wienerLoop_verified (n e : Nat) : ∀ (l : List (Nat × Nat)) (nn d : Nat),
    wienerLoop n e l = some (nn, d) →
    nn = n ∧ ∃ k : Nat, (k, d) ∈ l ∧ k ≠ 0 ∧
      ((e : Int) * (d : Int) - 1) % (k : Int) = 0 ∧
      ∃ p q : Int, p * q = (n : Int) ∧ 1 < p ∧ 1 < q ∧
        p + q = (n : Int) - (((e : Int) * (d : Int) - 1) / (k : Int)) + 1 ∧
        ((e : Int) * (d : Int)) % (((e : Int) * (d : Int) - 1) / (k : Int)) = 1 := by
  intro l
  induction l with
  | nil => intro nn d h; simp [wienerLoop] at h
  | cons kd rest ih =>
    obtain ⟨k0, d0⟩ := kd
    intro nn d h
    rw [wienerLoop] at h
    by_cases hk : k0 = 0
    · rw [if_pos hk] at h
      obtain ⟨hnn, k, hmem, hrest⟩ := ih nn d h
      exact ⟨hnn, k, List.mem_cons_of_mem _ hmem, hrest⟩
    · rw [if_neg hk] at h
      by_cases hm : ((e : Int) * (d0 : Int) - 1) % (k0 : Int) ≠ 0
      · rw [if_pos hm] at h
        obtain ⟨hnn, k, hmem, hrest⟩ := ih nn d h
        exact ⟨hnn, k, List.mem_cons_of_mem _ hmem, hrest⟩
      · rw [if_neg hm] at h
        push_neg at hm
        cases hR : recover_prime_factors n (((e : Int) * (d0 : Int) - 1) / (k0 : Int)) with
        | none =>
          rw [hR] at h
          obtain ⟨hnn, k, hmem, hrest⟩ := ih nn d h
          exact ⟨hnn, k, List.mem_cons_of_mem _ hmem, hrest⟩
        | some pq =>
          obtain ⟨p, q⟩ := pq
          rw [hR] at h
          by_cases hfin :
              ((e : Int) * (d0 : Int)) % (((e : Int) * (d0 : Int) - 1) / (k0 : Int)) = 1
          · rw [if_pos hfin] at h
            have hpair : n = nn ∧ d0 = d := by simpa using h
            obtain ⟨rfl, rfl⟩ := hpair
            obtain ⟨h1, h2, h3, h4⟩ := recover_prime_factors_sound hR
            exact ⟨rfl, k0, List.mem_cons_self _ _, hk, hm,
              p, q, h1, h2, h3, h4, hfin⟩
          · rw [if_neg hfin] at h
            obtain ⟨hnn, k, hmem, hrest⟩ := ih nn d h
            exact ⟨hnn, k, List.mem_cons_of_mem _ hmem, hrest⟩

/-! ### Claim C6: every exponent returned by the Wiener attack passed all
checks -/

/-- C6: whenever `wiener_attack (n, e)` returns `(n, d)`, some convergent
`(k, d)` with `k ≠ 0` had `k` dividing `e*d - 1` exactly; with
`phi = (e*d - 1)/k`, factors `p, q` were found with `p*q = n`, `p, q > 1`
and `p + q = n - phi + 1`; and `(e*d) mod phi = 1` held before returning. -/
theorem wiener_attack_verified (n e nn d : Nat) (hn : 1 < n) (he : 1 ≤ e)
    (h : wiener_attack n e = some (nn, d)) :
    nn = n ∧ ∃ k : Nat,
      (k, d) ∈ convergents_from_cf (continued_fraction_expansion e n) ∧
      k ≠ 0 ∧ ((e : Int) * (d : Int) - 1) % (k : Int) = 0 ∧
      ∃ p q : Int, p * q = (n : Int) ∧ 1 < p ∧ 1 < q ∧
        p + q = (n : Int) - (((e : Int) * (d : Int) - 1) / (k : Int)) + 1 ∧
        ((e : Int) * (d : Int)) %
          (((e : Int) * (d : Int) - 1) / (k : Int)) = 1 := by
  rw [wiener_attack] at h
  exact wienerLoop_verified n e _ nn d h

theorem wiener_attack_verified_witness :
    (7387 : Nat) = 7387 ∧ ∃ k : Nat,
      (k, 3) ∈ convergents_from_cf (continued_fraction_expansion 4811 7387) ∧
      k ≠ 0 ∧
      (((4811 : Nat) : Int) * ((3 : Nat) : Int) - 1) % (k : Int) = 0 ∧
      ∃ p q : Int, p * q = ((7387 : Nat) : Int) ∧ 1 < p ∧ 1 < q ∧
        p + q = ((7387 : Nat) : Int) -
          ((((4811 : Nat) : Int) * ((3 : Nat) : Int) - 1) / (k : Int)) + 1 ∧
        (((4811 : Nat) : Int) * ((3 : Nat) : Int)) %
          ((((4811 : Nat) : Int) * ((3 : Nat) : Int) - 1) / (k : Int)) = 1 :=
  wiener_attack_verified 7387 4811 7387 3 (by decide) (by decide) (by decide)

/-! ### Claim C3: Fermat factorization of products of close primes -/

/-- An exact difference of squares factors `n`, with a positive small factor. -/
theorem diff_sq_factor {a b n : Nat} (hn : 1 ≤ n) (hab : b * b + n = a * a) :
    (a - b) * (a + b) = n ∧ 1 ≤ a - b := by
  have hba : b ≤ a := by nlinarith
  obtain ⟨d, rfl⟩ : ∃ d, a = b + d := ⟨a - b, by omega⟩
  have h1 : b + d - b = d := by omega
  rw [h1]
  have hd : 1 ≤ d := by
    rcases Nat.eq_zero_or_pos d with h0 | h0
    · subst h0
      simp only [Nat.add_zero] at hab
      omega
    · exact h0
  refine ⟨?_, hd⟩
  have h2 : (b + d) * (b + d) = b * b + d * (b + d + b) := by ring
  rw [← hab] at h2
  exact (Nat.add_left_cancel h2).symm

/-- The divisors of a product of two primes. -/
theorem divisor_of_prime_mul {p q u : Nat} (hp : Nat.Prime p)
    (hq : Nat.Prime q) (h : u ∣ p * q) :
    u = 1 ∨ u = p ∨ u = q ∨ u = p * q := by
  by_cases hpu : p ∣ u
  · obtain ⟨w, rfl⟩ := hpu
    have hw : w ∣ q := by
      have hcancel : p * w ∣ p * q := h
      exact (Nat.mul_dvd_mul_iff_left hp.pos).mp hcancel
    rcases (Nat.Prime.eq_one_or_self_of_dvd hq w hw) with rfl | rfl
    · right; left; exact Nat.mul_one p
    · right; right; right; rfl
  · have hcop : Nat.Coprime u p :=
      Nat.Coprime.symm ((Nat.Prime.coprime_iff_not_dvd hp).mpr hpu)
    have huq : u ∣ q := Nat.Coprime.dvd_of_dvd_mul_left hcop h
    rcases (Nat.Prime.eq_one_or_self_of_dvd hq u huq) with rfl | rfl
    · left; rfl
    · right; right; left; rfl

/-- The start value of the Fermat search never overshoots a square bound. -/
theorem fermat_start_le {n s : Nat} (hs : n ≤ s * s) :
    (if isqrt n * isqrt n < n then isqrt n + 1 else isqrt n) ≤ s := by
  by_cases h : isqrt n * isqrt n < n
  · simp only [h, if_pos, if_true]
    by_contra hcon
    push_neg at hcon
    have : s * s ≤ isqrt n * isqrt n := Nat.mul_le_mul (by omega) (by omega)
    omega
  · simp only [h, if_neg, if_false, ite_false]
    by_contra hcon
    push_neg at hcon
    have : s * s < isqrt n * isqrt n := Nat.mul_lt_mul_of_lt_of_le hcon
      (by omega) (by omega)
    have := isqrt_le n
    omega

/-- If no `a` in `[a, s)` makes `a*a - n` a perfect square and `s` does,
the loop reaches `s` and reports `(s - b, s + b)`. -/
theorem fermatLoop_reaches (n s : Nat)
    (hhit : isqrt (s * s - n) * isqrt (s * s - n) = s * s - n) :
    ∀ fuel a, a ≤ s → s - a < fuel →
    (∀ x, a ≤ x → x < s →
      isqrt (x * x - n) * isqrt (x * x - n) ≠ x * x - n) →
    fermatLoop n fuel a =
      some (s - isqrt (s * s - n), s + isqrt (s * s - n)) := by
  intro fuel
  induction fuel with
  | zero => intro a h1 h2 _; omega
  | succ fuel ih =>
    intro a h1 h2 hmiss
    rcases Nat.eq_or_lt_of_le h1 with rfl | hlt
    · simp only [fermatLoop]
      rw [if_pos hhit]
    · have hne := hmiss a (le_refl a) hlt
      simp only [fermatLoop]
      rw [if_neg hne]
      exact ih (a + 1) (by omega) (by omega)
        (fun x hx1 hx2 => hmiss x (by omega) hx2)

/-- C3 fails as stated: it quantifies over *every* pair of primes, but for
`p = 2`, `q = 3` the product `6 ≡ 2 (mod 4)` is not a difference of two
squares, so the search exhausts its iterations and returns `none` even with
`maxIterations` far above `|p-q|/2 + 1`. -/
theorem fermat_even_prime_counterexample :
    fermat_factorization 6 5 = none ∧ Nat.Prime 2 ∧ Nat.Prime 3 ∧
      (3 - 2) / 2 + 1 ≤ 5 := by decide

/-- C3 amended: for *odd* primes `p ≤ q` and
`maxIterations ≥ (q-p)/2 + 1`, the factorizer returns exactly `(p, q)`;
and with too few iterations it fails: `fermat_factorization 15 0 = none`
although `3 * 5 = 15` with bound `(5-3)/2 + 1 = 2 > 0`. -/
theorem fermat_close_odd_primes (p q maxIt : Nat) (hp : Nat.Prime p)
    (hq : Nat.Prime q) (hop : Odd p) (hoq : Odd q) (hpq : p ≤ q)
    (hIt : (q - p) / 2 + 1 ≤ maxIt) :
    fermat_factorization (p * q) maxIt = some (p, q) ∧
      fermat_factorization 15 0 = none := by
  refine ⟨?_, rfl⟩
  obtain ⟨i, hi⟩ := hop
  obtain ⟨j, hj⟩ := hoq
  have hi' : p = 2 * i + 1 := by omega
  have hij : i ≤ j := by omega
  obtain ⟨d, rfl⟩ : ∃ d, j = i + d := ⟨j - i, by omega⟩
  have hj' : q = 2 * i + 2 * d + 1 := by omega
  have hp2 : 2 ≤ p := hp.two_le
  have hq2 : 2 ≤ q := hq.two_le
  have hss : (2 * i + d + 1) * (2 * i + d + 1) = p * q + d * d := by
    rw [hi', hj']; ring
  have h2s : 2 * (2 * i + d + 1) = p + q := by omega
  have hn1 : 1 ≤ p * q := by nlinarith
  have h4n : 4 ≤ p * q := by nlinarith
  have h2q : 2 * q ≤ p * q := Nat.mul_le_mul_right q hp2
  show fermatLoop (p * q) maxIt
    (if isqrt (p * q) * isqrt (p * q) < p * q then isqrt (p * q) + 1
      else isqrt (p * q)) = some (p, q)
  set A := if isqrt (p * q) * isqrt (p * q) < p * q then isqrt (p * q) + 1
    else isqrt (p * q) with hA
  have hstart_sq : p * q ≤ A * A := fermat_start_sq (p * q)
  have hstart_le : A ≤ 2 * i + d + 1 := fermat_start_le (by omega)
  have hpA : p ≤ A := by
    by_contra hcon
    push_neg at hcon
    have h1 : A * A < p * p := Nat.mul_lt_mul_of_lt_of_le hcon (by omega)
      (by omega)
    have h2 : p * p ≤ p * q := Nat.mul_le_mul_left p hpq
    omega
  have hsub : (2 * i + d + 1) * (2 * i + d + 1) - p * q = d * d := by omega
  have hisq : isqrt ((2 * i + d + 1) * (2 * i + d + 1) - p * q) = d := by
    rw [hsub]
    exact isqrt_unique (le_refl (d * d)) (by nlinarith)
  have hhit : isqrt ((2 * i + d + 1) * (2 * i + d + 1) - p * q) *
      isqrt ((2 * i + d + 1) * (2 * i + d + 1) - p * q) =
      (2 * i + d + 1) * (2 * i + d + 1) - p * q := by
    rw [hisq, hsub]
  have hmiss : ∀ x, A ≤ x → x < 2 * i + d + 1 →
      isqrt (x * x - p * q) * isqrt (x * x - p * q) ≠ x * x - p * q := by
    intro x hx1 hx2 hbEq
    have hxsq : p * q ≤ x * x := le_trans hstart_sq (Nat.mul_le_mul hx1 hx1)
    generalize hB : isqrt (x * x - p * q) = b at hbEq
    have hsum : b * b + p * q = x * x := by omega
    obtain ⟨hfac, hupos⟩ := diff_sq_factor hn1 hsum
    have hbx : b ≤ x := by
      by_contra hcon
      push_neg at hcon
      have : x * x < b * b := Nat.mul_lt_mul_of_lt_of_le hcon (by omega)
        (by omega)
      omega
    have hdvd : (x - b) ∣ p * q := ⟨x + b, hfac.symm⟩
    have h2x : 2 * x < p + q := by omega
    rcases divisor_of_prime_mul hp hq hdvd with h | h | h | h
    · rw [h, one_mul] at hfac
      omega
    · rw [h] at hfac
      have hv : x + b = q := Nat.eq_of_mul_eq_mul_left hp.pos hfac
      omega
    · rw [h] at hfac
      have hfac' : q * (x + b) = q * p := by rw [hfac, Nat.mul_comm]
      have hv : x + b = p := Nat.eq_of_mul_eq_mul_left hq.pos hfac'
      omega
    · rw [h] at hfac
      have hfac' : p * q * (x + b) = p * q * 1 := by
        rw [Nat.mul_one]; exact hfac
      have hv : x + b = 1 := Nat.eq_of_mul_eq_mul_left (by omega) hfac'
      omega
  have hrun := fermatLoop_reaches (p * q) (2 * i + d + 1) hhit maxIt A
    hstart_le (by omega) hmiss
  rw [hisq] at hrun
  have e1 : 2 * i + d + 1 - d = p := by omega
  have e2 : 2 * i + d + 1 + d = q := by omega
  rw [e1, e2] at hrun
  exact hrun

theorem fermat_close_odd_primes_witness :
    fermat_factorization (5 * 11) 4 = some (5, 11) ∧
      fermat_factorization 15 0 = none :=
  fermat_close_odd_primes 5 11 4 (by decide) (by decide) (by decide)
    (by decide) (by decide) (by decide)
